import Mathlib

/-!
Verification of the syscall generator script `scripts/gen_syscalls.py`.

The script scans a tree of header files for `__syscall` / `__syscall_inline`
annotated declarations, derives for each one a syscall identifier, a handler
symbol, a macro invocation and a dispatch-table entry, and renders three
artifacts: a dispatch-table C unit, a listing header (on stdout) and one
invocation header per origin file (written only when its content changed).

The definitions below are a shallow embedding of that script: Python strings
become `String`/`List Char`, the two regular expressions are embedded as
explicit matching functions with the semantics of the Python `re` engine
(`.` does not match a newline, `$` matches at the end of the string or just
before one final newline, ordered alternation, greedy repetition with
backtracking, `re.match` anchored at the start, `finditer` scanning
left-to-right and resuming after each non-overlapping match), exceptions
become `Except String`, and the file system becomes explicit lists of
`(root, filename, content)` and `(path, content)` pairs.
-/

/-! ## Character helpers -/

/-- The character class `[A-Za-z0-9_]` used by `typename_regex`. -/
def isIdChar (c : Char) : Bool :=
  c.isAlpha || c.isDigit || c = '_'

/-- Python `str.strip()` / the regex class `\s`, restricted to the ASCII
whitespace characters (the script only ever meets ASCII input). -/
def pyWs (c : Char) : Bool :=
  c = ' ' || c = '\t' || c = '\n' || c = '\r' || c = '\x0b' || c = '\x0c'

/-- Python `str.strip()` on the underlying character list: drop leading and
trailing whitespace. -/
def pyStripList (cs : List Char) : List Char :=
  ((cs.dropWhile pyWs).reverse.dropWhile pyWs).reverse

/-- Python `str.strip()`. -/
def pyStrip (s : String) : String :=
  ⟨pyStripList s.data⟩

/-- Python `str.upper()` on one character (ASCII). -/
def pyUpperChar (c : Char) : Char :=
  if 'a' ≤ c && c ≤ 'z' then Char.ofNat (c.toNat - 32) else c

/-- Python `str.upper()` (ASCII; the script only uppercases identifier
characters matched by `[A-Za-z0-9_]`). -/
def pyUpper (s : String) : String :=
  ⟨s.data.map pyUpperChar⟩

/-! ## The regex `typename_regex = (.*?)([A-Za-z0-9_]+)$`, with `re.match`

`re.match` anchors at the start of the string.  `.` does not match `'\n'`,
and `$` matches at the end of the string or just before a single final
`'\n'`.  The engine tries the shortest `(.*?)` first, lengthening it one
character at a time; at each prefix length the greedy `([A-Za-z0-9_]+)$`
succeeds exactly when the rest of the string, minus one optional final
newline, is a non-empty run of identifier characters. -/

/-- The string with one final `'\n'` removed, if present: the region in
which `([A-Za-z0-9_]+)$` must land. -/
def coreNl (cs : List Char) : List Char :=
  if cs.getLast? = some '\n' then cs.dropLast else cs

/-- Whether `([A-Za-z0-9_]+)$` matches the whole remaining input. -/
def sufOK (cs : List Char) : Bool :=
  !(coreNl cs).isEmpty && (coreNl cs).all isIdChar

/-- The `re.match` of `typename_regex`: returns the two capture groups
(the `(.*?)` text and the `([A-Za-z0-9_]+)` text) or `none`. -/
def findMatch : List Char → Option (List Char × List Char)
  | [] => none
  | c :: rest =>
    if sufOK (c :: rest) then some ([], coreNl (c :: rest))
    else if c = '\n' then none
    else (findMatch rest).map (fun pi => (c :: pi.1, pi.2))

/-- Declarative counterpart of group 2: the maximal trailing run of
identifier characters of a string. -/
def trailRun : List Char → List Char
  | [] => []
  | c :: t => if isIdChar c && t.all isIdChar then c :: t else trailRun t

/-- Declarative counterpart of group 1: everything before the maximal
trailing run of identifier characters. -/
def beforeRun : List Char → List Char
  | [] => []
  | c :: t => if isIdChar c && t.all isIdChar then [] else c :: beforeRun t

/-! ## `typename_split` -/

/-- `typename_split(item)` from the script: reject `[` and `(`, then match
`typename_regex` and return `(group1.strip(), group2)`; a failed match is
the "Malformed system call invocation" error.  Errors model the raised
`SyscallParseException` by its message. -/
def typename_split (item : String) : Except String (String × String) :=
  if item.data.contains '[' then
    .error ("Please pass arrays to syscalls as pointers, unable to process \x27" ++ item ++ "\x27")
  else if item.data.contains '(' then
    .error "Please use typedefs for function pointers"
  else
    match findMatch item.data with
    | none => .error "Malformed system call invocation"
    | some pi => .ok (pyStrip ⟨pi.1⟩, ⟨pi.2⟩)

/-! ## Python `%d` formatting: decimal representation of a natural number -/

/-- The decimal digit character of `n % 10`-sized values. -/
def decDigit (n : Nat) : Char :=
  Char.ofNat (48 + n)

/-- Structural worker for the decimal digit string: the fuel only bounds
the recursion depth (one digit per step), it never shows in the result —
see `decCharsAux_congr`. -/
def decCharsAux : Nat → Nat → List Char
  | 0, _ => []
  | fuel + 1, n =>
    if n < 10 then [decDigit n]
    else decCharsAux fuel (n / 10) ++ [decDigit (n % 10)]

/-- The decimal digit string of a natural number, as produced by `"%d" % n`. -/
def decChars (n : Nat) : List Char :=
  decCharsAux (n + 1) n

/-- `"%d" % n` as a string. -/
def decStr (n : Nat) : String :=
  ⟨decChars n⟩

/-! ## The Declaration Analyzer (`analyze_fn`) -/

/-- The macro name `"K_SYSCALL_DECLARE%d%s%s" % (len(args), "_VOID" if
is_void else "", "_INLINE" if variant == "syscall_inline" else "")`. -/
def macroName (nargs : Nat) (isVoid : Bool) (isInl : Bool) : String :=
  "K_SYSCALL_DECLARE" ++ decStr nargs ++
    (if isVoid then "_VOID" else "") ++ (if isInl then "_INLINE" else "")

/-- The `_VOID`/`_INLINE` suffix pair of the macro name as a character
list. -/
def sfxData (v i : Bool) : List Char :=
  (if v then "_VOID" else "").data ++ (if i then "_INLINE" else "").data

/-- Python `str.split(",")`: split at every comma; the empty string yields
`[""]`, and empty pieces are kept. -/
def splitComma : List Char → List (List Char)
  | [] => [[]]
  | c :: cs =>
    if c = ',' then [] :: splitComma cs
    else
      match splitComma cs with
      | [] => [[c]]
      | p :: ps => (c :: p) :: ps

/-- Lines 46–50 of the script: `void` (the exact text, untrimmed) means no
arguments; otherwise split on commas, strip each piece, and run
`typename_split` on it. -/
def parseArgs (args : String) : Except String (List (String × String)) :=
  if args == "void" then .ok []
  else (splitComma args.data).mapM (fun a => typename_split (pyStrip ⟨a⟩))

/-- Python `sep.join(list)`. -/
def joinSep (sep : String) : List String → String
  | [] => ""
  | [x] => x
  | x :: y :: xs => x ++ sep ++ joinSep sep (y :: xs)

/-- The tuple returned by `analyze_fn`:
`(fn, handler, invocation, sys_id, table_entry)`. -/
structure SyscallRecord where
  fn : String
  handler : String
  invocation : String
  sysId : String
  tableEntry : String
deriving DecidableEq, Repr

/-- `analyze_fn(match_group, fn)`: consume one raw regex match
`(variant, func, args)` plus the origin file name `fn` and produce one
record, or fail with the first `SyscallParseException` message. -/
def analyzeFn (variant func args fn : String) : Except String SyscallRecord := do
  let argl ← parseArgs args
  let (funcType, funcName) ← typename_split func
  let sysId := "K_SYSCALL_" ++ pyUpper funcName
  let isVoid := funcType == "void"
  let mac := macroName argl.length isVoid (variant == "syscall_inline")
  let flat := argl.flatMap (fun p => [p.1, p.2])
  let flat := if isVoid then flat else funcType :: flat
  let flat := sysId :: funcName :: flat
  let argsList := joinSep ", " flat
  let invocation := mac ++ "(" ++ argsList ++ ");"
  let handler := "_handler_" ++ funcName
  let tableEntry := "[" ++ sysId ++ "] = " ++ handler
  pure ⟨fn, handler, invocation, sysId, tableEntry⟩

/-! ## The Declaration Extractor (`api_regex` with `finditer`)

`__(syscall|syscall_inline)\s+([^(]+)[(]([^)]*)[)]` (the `re.VERBOSE`
comments and layout of the pattern are ignored by the engine, and
`re.MULTILINE` only affects `^`/`$`, which the pattern does not use).
`finditer` scans every start position from left to right and resumes after
the end of each match. -/

/-- Split a character list at the first occurrence of `c`: returns the part
before it and the part after it, or `none` when `c` does not occur. -/
def splitAtChar (c : Char) : List Char → Option (List Char × List Char)
  | [] => none
  | x :: xs =>
    if x = c then some ([], xs)
    else (splitAtChar c xs).map (fun p => (x :: p.1, p.2))

/-- How `\s+([^(]+)` carves up the text standing before the first `(`:
the greedy `\s+` keeps the maximal whitespace run, except that it gives one
character back when `([^(]+)` would otherwise be empty; `none` when no
split with a non-empty whitespace part exists. -/
def funcGroup (pre : List Char) : Option (List Char) :=
  let w := pre.takeWhile pyWs
  let f := pre.drop w.length
  if w.isEmpty then none
  else if f.isEmpty then
    if 2 ≤ pre.length then some (pre.drop (pre.length - 1)) else none
  else some f

/-- The part of the pattern after the annotation keyword:
`\s+([^(]+)[(]([^)]*)[)]`.  Returns `(func, args, rest-of-input)`.
`[^(]+` cannot cross a parenthesis, so the `[(]` literal consumes the first
`(` and the `[)]` literal the first `)` after it. -/
def matchTail (cs : List Char) : Option (List Char × List Char × List Char) :=
  match splitAtChar '(' cs with
  | none => none
  | some (pre, afterParen) =>
    match funcGroup pre with
    | none => none
    | some func =>
      match splitAtChar ')' afterParen with
      | none => none
      | some (a, rest) => some (func, a, rest)

/-- One attempted match of `api_regex` anchored at the current position:
the literal `__` followed by the ordered alternation
`syscall|syscall_inline` (the first branch is tried first and the second is
tried when the rest of the pattern fails after it), then `matchTail`.
Returns the three groups and the rest of the input after the match. -/
def matchAt (cs : List Char) : Option ((String × String × String) × List Char) :=
  if "__syscall".data.isPrefixOf cs then
    match matchTail (cs.drop 9) with
    | some (f, a, rest) => some (("syscall", ⟨f⟩, ⟨a⟩), rest)
    | none =>
      if "__syscall_inline".data.isPrefixOf cs then
        match matchTail (cs.drop 16) with
        | some (f, a, rest) => some (("syscall_inline", ⟨f⟩, ⟨a⟩), rest)
        | none => none
      else none
  else none

/-- Structural worker for the scan: each step consumes at least one input
character, so the fuel only bounds the recursion depth and never shows in
the result — see `scanAllAux_congr` and `scanAll_cons`. -/
def scanAllAux : Nat → List Char → List (String × String × String)
  | 0, _ => []
  | fuel + 1, cs =>
    match cs with
    | [] => []
    | c :: rest =>
      match matchAt (c :: rest) with
      | some (t, after) => t :: scanAllAux fuel after
      | none => scanAllAux fuel rest

/-- `api_regex.finditer`: all non-overlapping matches, left to right. -/
def scanAll (cs : List Char) : List (String × String × String) :=
  scanAllAux (cs.length + 1) cs

/-! ## The Tree Walker (`analyze_headers`)

`os.walk` and file reading stay outside the embedding: the walker's input
is the list of `(root, filename, content)` triples in traversal order. -/

/-- `os.path.join(root, fn)` for the shapes the script builds. -/
def pathJoin (root fn : String) : String :=
  if root == "" then fn else root ++ "/" ++ fn

/-- The walker's filter: keep `fn` when it ends in `.h` and the joined path
does not end in `toolchain/common.h`. -/
def keepFile (root fn : String) : Bool :=
  ".h".data.isSuffixOf fn.data &&
    !("toolchain/common.h".data.isSuffixOf (pathJoin root fn).data)

/-- All records of one file: run the extractor over the content and
`analyze_fn` over every match, with the file's base name as origin.  The
first exception aborts the file (and, upstream, the whole run). -/
def analyzeFile (content fn : String) : Except String (List SyscallRecord) :=
  (scanAll content.data).mapM (fun t => analyzeFn t.1 t.2.1 t.2.2 fn)

/-- `analyze_headers(base_path)`: walk the files in order, keep the header
files, accumulate all their records; the first exception aborts the run. -/
def analyzeHeaders : List (String × String × String) → Except String (List SyscallRecord)
  | [] => .ok []
  | (root, fn, content) :: rest =>
    if keepFile root fn then do
      let rs ← analyzeFile content fn
      let more ← analyzeHeaders rest
      pure (rs ++ more)
    else analyzeHeaders rest

/-! ## The Output Synthesizer: templates and `main`

The template strings are transcribed from the script byte for byte
(`\x7b`/`\x7d` are `{`/`}`, `\x27` is an apostrophe). -/

/-- `table_template % (weak_defines, entries)`. -/
def tableTemplate (weak entries : String) : String :=
  "/* auto-generated by gen_syscalls.py, don\x27t edit */\n\n/* Weak handler functions that get replaced by the real ones unles a system\n * call is not implemented due to kernel configuration\n */\n" ++
    weak ++
    "\n\nconst _k_syscall_handler_t _k_syscall_table[K_SYSCALL_LIMIT] = \x7b\n\t" ++
    entries ++ "\n\x7d;\n"

/-- `list_template % (ids, handler_defines)`. -/
def listTemplate (ids handlerDefs : String) : String :=
  "\n/* auto-generated by gen_syscalls.py, don\x27t edit */\n#ifndef _ZEPHYR_SYSCALL_LIST_H_\n#define _ZEPHYR_SYSCALL_LIST_H_\n\n#ifndef _ASMLANGUAGE\n\n#ifdef __cplusplus\nextern \"C\" \x7b\n#endif\n\nenum \x7b\n\t" ++
    ids ++ "\n\x7d;\n\n" ++ handlerDefs ++
    "\n\n#ifdef __cplusplus\n\x7d\n#endif\n\n#endif /* _ASMLANGUAGE */\n\n#endif /* _ZEPHYR_SYSCALL_LIST_H_ */\n"

/-- `syscall_template % invocations`. -/
def syscallTemplate (invocations : String) : String :=
  "\n/* auto-generated by gen_syscalls.py, don\x27t edit */\n\n#ifndef _ASMLANGUAGE\n\n#include <syscall_list.h>\n#include <syscall_macros.h>\n\n#ifdef __cplusplus\nextern \"C\" \x7b\n#endif\n\n" ++
    invocations ++ "\n\n#ifdef __cplusplus\n\x7d\n#endif\n\n#endif\n"

/-- `handler_template % name`. -/
def handlerTemplate (name : String) : String :=
  "\nextern u32_t " ++ name ++
    "(u32_t arg1, u32_t arg2, u32_t arg3,\n                u32_t arg4, u32_t arg5, u32_t arg6, void *ssf);\n"

/-- `weak_template % name`. -/
def weakTemplate (name : String) : String :=
  "\n__weak ALIAS_OF(_handler_no_syscall)\nu32_t " ++ name ++
    "(u32_t arg1, u32_t arg2, u32_t arg3,\n         u32_t arg4, u32_t arg5, u32_t arg6, void *ssf);\n"

/-- The sentinel dispatch entry appended after all records. -/
def badTableEntry : String :=
  "[K_SYSCALL_BAD] = _handler_bad_syscall"

/-- The state of `main`'s aggregation loop: the `invocations` dict (a
Python dict keeps keys in insertion order) and the `ids`, `table_entries`
and `handlers` lists. -/
structure MainAcc where
  invocations : List (String × List String)
  ids : List String
  tableEntries : List String
  handlers : List String
deriving DecidableEq, Repr

/-- `invocations[fn].append(inv)`, creating the key at the end on first
use, as the loop body does. -/
def addInv (m : List (String × List String)) (fn inv : String) :
    List (String × List String) :=
  match m with
  | [] => [(fn, [inv])]
  | (k, vs) :: rest =>
    if k = fn then (k, vs ++ [inv]) :: rest else (k, vs) :: addInv rest fn inv

/-- One iteration of `main`'s `for fn, handler, inv, sys_id, entry in
syscalls` loop. -/
def mainStep (acc : MainAcc) (r : SyscallRecord) : MainAcc :=
  ⟨addInv acc.invocations r.fn r.invocation,
    acc.ids ++ [r.sysId],
    acc.tableEntries ++ [r.tableEntry],
    acc.handlers ++ [r.handler]⟩

/-- The whole aggregation loop over the record list. -/
def mainFold (records : List SyscallRecord) : MainAcc :=
  records.foldl mainStep ⟨[], [], [], []⟩

/-- Python string `<`, by code point, on the character lists (the
comparison `list.sort` uses). -/
def lexLt : List Char → List Char → Bool
  | [], [] => false
  | [], _ :: _ => true
  | _ :: _, [] => false
  | a :: as, b :: bs => if a = b then lexLt as bs else decide (a < b)

/-- The non-strict comparison a stable sort by Python `<` realises. -/
def strLe (a b : String) : Bool :=
  !lexLt b.data a.data

/-- The text of the dispatch-table unit: weak declarations for every
handler in record order, then the table entries in record order with the
bad-syscall sentinel appended. -/
def dispatchText (records : List SyscallRecord) : String :=
  tableTemplate
    (String.join (((mainFold records).handlers).map weakTemplate))
    (joinSep ",\n\t" ((mainFold records).tableEntries ++ [badTableEntry]))

/-- The enumeration of the listing header: `ids.sort()` then the two
sentinels appended. -/
def listingIds (records : List SyscallRecord) : List String :=
  ((mainFold records).ids.mergeSort strLe) ++ ["K_SYSCALL_BAD", "K_SYSCALL_LIMIT"]

/-- The text of the listing header (written to stdout). -/
def listingText (records : List SyscallRecord) : String :=
  listTemplate
    (joinSep ",\n\t" (listingIds records))
    (String.join (((mainFold records).handlers).map handlerTemplate))

/-- The per-file invocation headers, one per key of the `invocations`
dict, in key insertion order. -/
def headersOut (records : List SyscallRecord) : List (String × String) :=
  (mainFold records).invocations.map
    (fun p => (p.1, syscallTemplate (joinSep "\n\n" p.2)))

/-- `main` up to the file-system writes: analyze all headers, then compute
the three artifacts.  Every write happens after `analyze_headers`
returned, so an exception yields no artifact at all. -/
def mainOutputs (files : List (String × String × String)) :
    Except String (String × String × List (String × String)) := do
  let records ← analyzeHeaders files
  pure (dispatchText records, listingText records, headersOut records)

/-! ## The conditional write of invocation headers -/

/-- Whether the script writes the header: it skips the write exactly when
a file exists at the target path with byte-identical content. -/
def shouldWrite (existing : Option String) (header : String) : Bool :=
  match existing with
  | none => true
  | some old => !(old == header)

/-- The modelled file system: `(path, content)` pairs. -/
def lookupFs (fs : List (String × String)) (k : String) : Option String :=
  match fs with
  | [] => none
  | (a, b) :: rest => if a = k then some b else lookupFs rest k

/-- Writing content `v` at path `k`. -/
def setKey (fs : List (String × String)) (k v : String) : List (String × String) :=
  match fs with
  | [] => [(k, v)]
  | (a, b) :: rest => if a = k then (a, v) :: rest else (a, b) :: setKey rest k v

/-- The file system after one generator run wrote the headers `hs` (a path
whose content already matches is overwritten with the same bytes, which is
the identity on the modelled state). -/
def applyWrites (fs : List (String × String)) (hs : List (String × String)) :
    List (String × String) :=
  hs.foldl (fun m kv => setKey m kv.1 kv.2) fs

/-- The paths a run with headers `hs` actually writes against file system
`fs`. -/
def writtenPaths (fs : List (String × String)) (hs : List (String × String)) :
    List String :=
  (hs.filter (fun kv => shouldWrite (lookupFs fs kv.1) kv.2)).map (fun kv => kv.1)

/-! ## Termination and fuel-irrelevance of the recursive scans -/

theorem decCharsAux_congr : ∀ f1 f2 n : Nat, n < f1 → n < f2 →
    decCharsAux f1 n = decCharsAux f2 n := by
  intro f1
  induction f1 with
  | zero => intro f2 n h1 _; omega
  | succ f1 ih =>
    intro f2 n h1 h2
    cases f2 with
    | zero => omega
    | succ f2 =>
      simp only [decCharsAux]
      split
      · rfl
      · rename_i hge
        have hd : n / 10 < n := Nat.div_lt_self (by omega) (by omega)
        rw [ih f2 (n / 10) (by omega) (by omega)]

theorem splitAtChar_shorter {c : Char} : ∀ {cs b a : List Char},
    splitAtChar c cs = some (b, a) → a.length < cs.length := by
  intro cs
  induction cs with
  | nil => intro b a h; simp [splitAtChar] at h
  | cons x xs ih =>
    intro b a h
    simp only [splitAtChar] at h
    split at h
    · cases h; simp
    · cases hx : splitAtChar c xs with
      | none => rw [hx] at h; simp at h
      | some p =>
        rw [hx] at h
        simp only [Option.map] at h
        cases h
        have := ih (b := p.1) (a := p.2) (by rw [hx])
        simp only [List.length_cons]
        omega

theorem matchTail_shorter {cs f a rest : List Char}
    (h : matchTail cs = some (f, a, rest)) : rest.length < cs.length := by
  unfold matchTail at h
  split at h
  · exact absurd h (by simp)
  rename_i pre afterParen h1
  split at h
  · exact absurd h (by simp)
  split at h
  · exact absurd h (by simp)
  rename_i a' rest' h2
  have hp1 := splitAtChar_shorter h1
  have hp2 := splitAtChar_shorter h2
  cases h
  omega

theorem isPrefixOf_length_le {l₁ l₂ : List Char} (h : l₁.isPrefixOf l₂ = true) :
    l₁.length ≤ l₂.length := by
  induction l₁ generalizing l₂ with
  | nil => simp
  | cons x xs ih =>
    cases l₂ with
    | nil => simp [List.isPrefixOf] at h
    | cons y ys =>
      simp only [List.isPrefixOf, Bool.and_eq_true] at h
      have := ih h.2
      simp only [List.length_cons]
      omega

theorem matchAt_shorter {cs : List Char} {t : String × String × String}
    {rest : List Char} (h : matchAt cs = some (t, rest)) :
    rest.length < cs.length := by
  simp only [matchAt] at h
  split at h
  · rename_i hpre
    have hlen : 9 ≤ cs.length := by simpa using isPrefixOf_length_le hpre
    split at h
    · rename_i f a r hmt
      cases h
      have := matchTail_shorter hmt
      simp only [List.length_drop] at this
      omega
    · split at h
      · rename_i hpre2
        have hlen2 : 16 ≤ cs.length := by simpa using isPrefixOf_length_le hpre2
        split at h
        · rename_i f a r hmt
          cases h
          have := matchTail_shorter hmt
          simp only [List.length_drop] at this
          omega
        · simp at h
      · simp at h
  · simp at h

theorem scanAllAux_congr : ∀ f1 f2 cs, cs.length < f1 → cs.length < f2 →
    scanAllAux f1 cs = scanAllAux f2 cs := by
  intro f1
  induction f1 with
  | zero => intro f2 cs h1 _; omega
  | succ f1 ih =>
    intro f2 cs h1 h2
    cases f2 with
    | zero => omega
    | succ f2 =>
      cases cs with
      | nil => rfl
      | cons c rest =>
        simp only [List.length_cons] at h1 h2
        show (match matchAt (c :: rest) with
          | some (t, after) => t :: scanAllAux f1 after
          | none => scanAllAux f1 rest) =
          (match matchAt (c :: rest) with
          | some (t, after) => t :: scanAllAux f2 after
          | none => scanAllAux f2 rest)
        cases hm : matchAt (c :: rest) with
        | some p =>
          obtain ⟨t, after⟩ := p
          have hlt := matchAt_shorter hm
          simp only [List.length_cons] at hlt
          show t :: scanAllAux f1 after = t :: scanAllAux f2 after
          rw [ih f2 after (by omega) (by omega)]
        | none =>
          show scanAllAux f1 rest = scanAllAux f2 rest
          exact ih f2 rest (by omega) (by omega)

theorem scanAll_nil : scanAll [] = [] := rfl

/-- The scan satisfies the natural recursion of `finditer`: yield the
match at the current position and resume after it, or move one character
forward. -/
theorem scanAll_cons (c : Char) (rest : List Char) :
    scanAll (c :: rest) =
      match matchAt (c :: rest) with
      | some (t, after) => t :: scanAll after
      | none => scanAll rest := by
  show (match matchAt (c :: rest) with
    | some (t, after) => t :: scanAllAux (rest.length + 1) after
    | none => scanAllAux (rest.length + 1) rest) =
    (match matchAt (c :: rest) with
    | some (t, after) => t :: scanAll after
    | none => scanAll rest)
  cases hm : matchAt (c :: rest) with
  | some p =>
    obtain ⟨t, after⟩ := p
    have hlt := matchAt_shorter hm
    simp only [List.length_cons] at hlt
    show t :: scanAllAux (rest.length + 1) after = t :: scanAll after
    rw [scanAllAux_congr (rest.length + 1) (after.length + 1) after (by omega)
      (by omega)]
    rfl
  | none => rfl

/-! ## Characterisation of the `typename_regex` match -/

theorem trailRun_cons (c : Char) (t : List Char) :
    trailRun (c :: t) =
      if isIdChar c && t.all isIdChar then c :: t else trailRun t := rfl

theorem beforeRun_cons (c : Char) (t : List Char) :
    beforeRun (c :: t) =
      if isIdChar c && t.all isIdChar then [] else c :: beforeRun t := rfl

theorem trailRun_of_all {t : List Char} (h : t.all isIdChar = true) :
    trailRun t = t := by
  cases t with
  | nil => rfl
  | cons c t =>
    rw [trailRun_cons]
    simp only [List.all_cons, Bool.and_eq_true] at h
    simp [h.1, h.2]

theorem beforeRun_of_all {t : List Char} (h : t.all isIdChar = true) :
    beforeRun t = [] := by
  cases t with
  | nil => rfl
  | cons c t =>
    rw [beforeRun_cons]
    simp only [List.all_cons, Bool.and_eq_true] at h
    simp [h.1, h.2]

theorem coreNl_nil : coreNl [] = [] := rfl

theorem coreNl_cons_of_ne {c : Char} {rest : List Char} (h : rest ≠ []) :
    coreNl (c :: rest) = c :: coreNl rest := by
  obtain ⟨d, ds, rfl⟩ := List.exists_cons_of_ne_nil h
  unfold coreNl
  rw [List.getLast?_cons_cons]
  split
  · rw [List.dropLast_cons₂]
  · rfl

theorem coreNl_singleton (c : Char) :
    coreNl [c] = if c = '\n' then [] else [c] := by
  unfold coreNl
  simp only [List.getLast?_singleton, List.dropLast_single]
  split
  · rename_i h
    simp only [Option.some.injEq] at h
    simp [h]
  · rename_i h
    simp only [Option.some.injEq] at h
    simp [h]

theorem sufOK_iff {cs : List Char} :
    sufOK cs = true ↔ coreNl cs ≠ [] ∧ (coreNl cs).all isIdChar = true := by
  simp [sufOK, List.isEmpty_iff]

/-- The operational matcher agrees with the declarative description: the
match succeeds exactly when the input, minus one optional final newline,
ends in a non-empty run of identifier characters whose preceding part has
no newline; group 1 is that preceding part and group 2 the run. -/
theorem findMatch_eq (cs : List Char) :
    findMatch cs =
      if trailRun (coreNl cs) ≠ [] ∧ '\n' ∉ beforeRun (coreNl cs)
      then some (beforeRun (coreNl cs), trailRun (coreNl cs))
      else none := by
  induction cs with
  | nil => simp [findMatch, coreNl_nil, trailRun]
  | cons c rest ih =>
    by_cases hS : sufOK (c :: rest) = true
    · have hall := (sufOK_iff.mp hS).2
      rw [findMatch]
      simp only [hS, if_true]
      rw [trailRun_of_all hall, beforeRun_of_all hall]
      have hne := (sufOK_iff.mp hS).1
      simp [hne]
    · have hnotOK : ¬(coreNl (c :: rest) ≠ [] ∧
          (coreNl (c :: rest)).all isIdChar = true) := fun h => hS (sufOK_iff.mpr h)
      rw [findMatch]
      simp only [hS, if_false, Bool.false_eq_true]
      by_cases hNl : c = '\n'
      · subst hNl
        simp only [if_true]
        cases rest with
        | nil =>
          have h0 : coreNl ['\n'] = [] := by simp [coreNl_singleton]
          rw [h0]
          simp [trailRun]
        | cons d ds =>
          rw [coreNl_cons_of_ne (List.cons_ne_nil d ds)]
          rw [trailRun_cons, beforeRun_cons]
          have hid : isIdChar '\n' = false := by decide
          simp [hid]
      · simp only [hNl, if_false]
        cases rest with
        | nil =>
          have h1 : coreNl [c] = [c] := by simp [coreNl_singleton, hNl]
          rw [h1] at hnotOK ⊢
          have hc : isIdChar c = false := by
            cases hic : isIdChar c
            · rfl
            · exact absurd ⟨List.cons_ne_nil c [], by simp [hic]⟩ hnotOK
          rw [trailRun_cons]
          simp [findMatch, hc, trailRun]
        | cons d ds =>
          rw [coreNl_cons_of_ne (List.cons_ne_nil d ds)] at hnotOK ⊢
          have hcond : (isIdChar c && (coreNl (d :: ds)).all isIdChar) = false := by
            cases h1 : isIdChar c with
            | false => simp
            | true =>
              cases h2 : (coreNl (d :: ds)).all isIdChar with
              | false => simp
              | true =>
                exact absurd ⟨List.cons_ne_nil c _, by simp [List.all_cons, h1, h2]⟩
                  hnotOK
          rw [trailRun_cons, beforeRun_cons, hcond]
          simp only [Bool.false_eq_true, if_false]
          rw [ih]
          by_cases hc2 : trailRun (coreNl (d :: ds)) ≠ [] ∧
              '\n' ∉ beforeRun (coreNl (d :: ds))
          · rw [if_pos hc2]
            have hc3 : trailRun (coreNl (d :: ds)) ≠ [] ∧
                '\n' ∉ c :: beforeRun (coreNl (d :: ds)) := by
              refine ⟨hc2.1, fun hmem => ?_⟩
              rcases List.mem_cons.mp hmem with h | h
              · exact hNl h.symm
              · exact hc2.2 h
            rw [if_pos hc3]
            rfl
          · rw [if_neg hc2]
            have hc3 : ¬(trailRun (coreNl (d :: ds)) ≠ [] ∧
                '\n' ∉ c :: beforeRun (coreNl (d :: ds))) := by
              intro h
              exact hc2 ⟨h.1, fun hm => h.2 (List.mem_cons_of_mem _ hm)⟩
            rw [if_neg hc3]
            rfl

/-! ## Injectivity of the macro name in `(arg count, void, inline)` -/

theorem decDigit_toNat {n : Nat} (h : n < 10) : (decDigit n).toNat = 48 + n := by
  interval_cases n <;> rfl

theorem decDigit_inj {m n : Nat} (hm : m < 10) (hn : n < 10)
    (h : decDigit m = decDigit n) : m = n := by
  have := congrArg Char.toNat h
  rw [decDigit_toNat hm, decDigit_toNat hn] at this
  omega

theorem decDigit_isDigit {n : Nat} (h : n < 10) : (decDigit n).isDigit = true := by
  interval_cases n <;> decide

theorem decChars_lt {n : Nat} (h : n < 10) : decChars n = [decDigit n] := by
  simp only [decChars, decCharsAux]
  rw [if_pos h]

theorem decChars_ge {n : Nat} (h : ¬n < 10) :
    decChars n = decChars (n / 10) ++ [decDigit (n % 10)] := by
  have hd : n / 10 < n := Nat.div_lt_self (by omega) (by omega)
  show (if n < 10 then [decDigit n]
      else decCharsAux n (n / 10) ++ [decDigit (n % 10)]) =
    decCharsAux (n / 10 + 1) (n / 10) ++ [decDigit (n % 10)]
  rw [if_neg h, decCharsAux_congr n (n / 10 + 1) (n / 10) (by omega) (by omega)]

theorem decChars_ne_nil (n : Nat) : decChars n ≠ [] := by
  by_cases h : n < 10
  · rw [decChars_lt h]
    simp
  · rw [decChars_ge h]
    simp

theorem decChars_digits (n : Nat) : ∀ c ∈ decChars n, c.isDigit = true := by
  induction n using Nat.strong_induction_on with
  | _ n ih =>
    by_cases h : n < 10
    · rw [decChars_lt h]
      intro c hc
      simp only [List.mem_singleton] at hc
      subst hc
      exact decDigit_isDigit h
    · rw [decChars_ge h]
      intro c hc
      rcases List.mem_append.mp hc with h1 | h1
      · exact ih (n / 10) (Nat.div_lt_self (by omega) (by omega)) c h1
      · simp only [List.mem_singleton] at h1
        subst h1
        exact decDigit_isDigit (Nat.mod_lt _ (by omega))

theorem concat_inj {xs ys : List Char} {a b : Char}
    (h : xs ++ [a] = ys ++ [b]) : xs = ys ∧ a = b := by
  have h1 := congrArg List.dropLast h
  rw [List.dropLast_concat, List.dropLast_concat] at h1
  have h2 := congrArg List.getLast? h
  rw [List.getLast?_concat, List.getLast?_concat] at h2
  simp only [Option.some.injEq] at h2
  exact ⟨h1, h2⟩

theorem decChars_inj : ∀ m n : Nat, decChars m = decChars n → m = n := by
  intro m
  induction m using Nat.strong_induction_on with
  | _ m ih =>
    intro n h
    by_cases hm : m < 10 <;> by_cases hn : n < 10
    · rw [decChars_lt hm, decChars_lt hn] at h
      simp only [List.cons.injEq] at h
      exact decDigit_inj hm hn h.1
    · rw [decChars_lt hm, decChars_ge hn] at h
      have := congrArg List.length h
      simp only [List.length_singleton, List.length_append] at this
      have hne := decChars_ne_nil (n / 10)
      have hlen : (decChars (n / 10)).length ≠ 0 := fun hl =>
        hne (List.length_eq_zero.mp hl)
      omega
    · rw [decChars_ge hm, decChars_lt hn] at h
      have := congrArg List.length h
      simp only [List.length_singleton, List.length_append] at this
      have hne := decChars_ne_nil (m / 10)
      have hlen : (decChars (m / 10)).length ≠ 0 := fun hl =>
        hne (List.length_eq_zero.mp hl)
      omega
    · rw [decChars_ge hm, decChars_ge hn] at h
      obtain ⟨h1, h2⟩ := concat_inj h
      have hdiv : m / 10 = n / 10 :=
        ih (m / 10) (Nat.div_lt_self (by omega) (by omega)) (n / 10) h1
      have hmod : m % 10 = n % 10 :=
        decDigit_inj (Nat.mod_lt _ (by omega)) (Nat.mod_lt _ (by omega)) h2
      omega

theorem digit_run_append_inj :
    ∀ {xs ys zs ws : List Char},
      (∀ c ∈ xs, c.isDigit = true) → (∀ c ∈ zs, c.isDigit = true) →
      (∀ c, ys.head? = some c → c.isDigit = false) →
      (∀ c, ws.head? = some c → c.isDigit = false) →
      xs ++ ys = zs ++ ws → xs = zs ∧ ys = ws := by
  intro xs
  induction xs with
  | nil =>
    intro ys zs ws _ hz hy _ h
    cases zs with
    | nil => exact ⟨rfl, h⟩
    | cons z zs' =>
      exfalso
      simp only [List.nil_append] at h
      have hhead : ys.head? = some z := by rw [h]; rfl
      have := hy z hhead
      have := hz z (List.mem_cons_self z zs')
      simp_all
  | cons x xs' ihx =>
    intro ys zs ws hx hz hy hw h
    cases zs with
    | nil =>
      exfalso
      simp only [List.nil_append] at h
      have hhead : ws.head? = some x := by rw [← h]; rfl
      have := hw x hhead
      have := hx x (List.mem_cons_self x xs')
      simp_all
    | cons z zs' =>
      simp only [List.cons_append, List.cons.injEq] at h
      obtain ⟨rfl, h2⟩ := h
      obtain ⟨ha, hb⟩ := ihx (fun c hc => hx c (List.mem_cons_of_mem _ hc))
        (fun c hc => hz c (List.mem_cons_of_mem _ hc)) hy hw h2
      exact ⟨by rw [ha], hb⟩

theorem sfx_head (v i : Bool) :
    ∀ c, (sfxData v i).head? = some c → c.isDigit = false := by
  cases v <;> cases i <;> intro c hc
  · have h2 : sfxData false false = [] := by decide
    rw [h2] at hc
    exact absurd hc (by simp)
  · have h2 : sfxData false true = '_' :: "INLINE".data := by decide
    rw [h2] at hc
    cases hc
    decide
  · have h2 : sfxData true false = '_' :: "VOID".data := by decide
    rw [h2] at hc
    cases hc
    decide
  · have h2 : sfxData true true = '_' :: "VOID_INLINE".data := by decide
    rw [h2] at hc
    cases hc
    decide

theorem macroName_data (n : Nat) (v i : Bool) :
    (macroName n v i).data =
      "K_SYSCALL_DECLARE".data ++ (decChars n ++ sfxData v i) := by
  simp only [macroName, decStr, sfxData, String.data_append, List.append_assoc]

/-! ## `lexLt` is a strict total order (Python string `<`) -/

theorem lexLt_asymm : ∀ as bs : List Char,
    lexLt as bs = true → lexLt bs as = false := by
  intro as
  induction as with
  | nil =>
    intro bs h
    cases bs with
    | nil => simp [lexLt] at h
    | cons b bs' => simp [lexLt]
  | cons a as' ih =>
    intro bs h
    cases bs with
    | nil => simp [lexLt] at h
    | cons b bs' =>
      simp only [lexLt] at h ⊢
      by_cases hab : a = b
      · subst hab
        simp only [if_pos rfl] at h ⊢
        exact ih bs' h
      · rw [if_neg hab] at h
        rw [if_neg (fun hba => hab hba.symm)]
        simp only [decide_eq_true_eq] at h
        simp only [decide_eq_false_iff_not]
        exact lt_asymm h

theorem lexLt_trans : ∀ as bs cs : List Char,
    lexLt as bs = true → lexLt bs cs = true → lexLt as cs = true := by
  intro as
  induction as with
  | nil =>
    intro bs cs h1 h2
    cases bs with
    | nil => simp [lexLt] at h1
    | cons b bs' =>
      cases cs with
      | nil => simp [lexLt] at h2
      | cons c cs' => simp [lexLt]
  | cons a as' ih =>
    intro bs cs h1 h2
    cases bs with
    | nil => simp [lexLt] at h1
    | cons b bs' =>
      cases cs with
      | nil => simp [lexLt] at h2
      | cons c cs' =>
        simp only [lexLt] at h1 h2 ⊢
        by_cases hab : a = b <;> by_cases hbc : b = c
        · subst hab; subst hbc
          rw [if_pos rfl] at h1 h2 ⊢
          exact ih bs' cs' h1 h2
        · subst hab
          rw [if_pos rfl] at h1
          rw [if_neg hbc] at h2 ⊢
          exact h2
        · subst hbc
          rw [if_neg hab] at h1 ⊢
          exact h1
        · rw [if_neg hab] at h1
          rw [if_neg hbc] at h2
          simp only [decide_eq_true_eq] at h1 h2
          have hac : a < c := lt_trans h1 h2
          rw [if_neg (ne_of_lt hac)]
          simp [hac]

theorem lexLt_connex : ∀ as bs : List Char,
    lexLt as bs = false → lexLt bs as = false → as = bs := by
  intro as
  induction as with
  | nil =>
    intro bs h1 _
    cases bs with
    | nil => rfl
    | cons b bs' => simp [lexLt] at h1
  | cons a as' ih =>
    intro bs h1 h2
    cases bs with
    | nil => simp [lexLt] at h2
    | cons b bs' =>
      simp only [lexLt] at h1 h2
      by_cases hab : a = b
      · subst hab
        rw [if_pos rfl] at h1 h2
        rw [ih bs' h1 h2]
      · rw [if_neg hab] at h1
        rw [if_neg (fun hba => hab hba.symm)] at h2
        simp only [decide_eq_false_iff_not] at h1 h2
        rcases lt_trichotomy a b with h | h | h
        · exact absurd h h1
        · exact absurd h hab
        · exact absurd h h2

theorem strLe_trans : ∀ a b c : String,
    strLe a b = true → strLe b c = true → strLe a c = true := by
  intro a b c h1 h2
  simp only [strLe, Bool.not_eq_true'] at h1 h2 ⊢
  rcases hca : lexLt c.data a.data with _ | _
  · rfl
  · exfalso
    rcases hab : lexLt a.data b.data with _ | _
    · have heq := lexLt_connex a.data b.data hab h1
      rw [← heq, hca] at h2
      simp at h2
    · have h3 := lexLt_trans c.data a.data b.data hca hab
      simp [h3] at h2

theorem strLe_total : ∀ a b : String, (strLe a b || strLe b a) = true := by
  intro a b
  simp only [strLe, Bool.or_eq_true, Bool.not_eq_true']
  rcases h : lexLt b.data a.data with _ | _
  · left; rfl
  · right
    exact lexLt_asymm _ _ h

/-! ## The aggregation loop of `main` -/

theorem foldl_mainStep_ids (records : List SyscallRecord) :
    ∀ acc : MainAcc, (records.foldl mainStep acc).ids =
      acc.ids ++ records.map (fun r => r.sysId) := by
  induction records with
  | nil => intro acc; simp
  | cons r rs ih =>
    intro acc
    simp only [List.foldl_cons, List.map_cons, ih, mainStep]
    simp

theorem foldl_mainStep_entries (records : List SyscallRecord) :
    ∀ acc : MainAcc, (records.foldl mainStep acc).tableEntries =
      acc.tableEntries ++ records.map (fun r => r.tableEntry) := by
  induction records with
  | nil => intro acc; simp
  | cons r rs ih =>
    intro acc
    simp only [List.foldl_cons, List.map_cons, ih, mainStep]
    simp

theorem foldl_mainStep_handlers (records : List SyscallRecord) :
    ∀ acc : MainAcc, (records.foldl mainStep acc).handlers =
      acc.handlers ++ records.map (fun r => r.handler) := by
  induction records with
  | nil => intro acc; simp
  | cons r rs ih =>
    intro acc
    simp only [List.foldl_cons, List.map_cons, ih, mainStep]
    simp

theorem mainFold_ids (records : List SyscallRecord) :
    (mainFold records).ids = records.map (fun r => r.sysId) := by
  simp [mainFold, foldl_mainStep_ids]

theorem mainFold_entries (records : List SyscallRecord) :
    (mainFold records).tableEntries = records.map (fun r => r.tableEntry) := by
  simp [mainFold, foldl_mainStep_entries]

theorem mainFold_handlers (records : List SyscallRecord) :
    (mainFold records).handlers = records.map (fun r => r.handler) := by
  simp [mainFold, foldl_mainStep_handlers]

theorem addInv_head_same (n : String) (l : List String)
    (rest : List (String × List String)) (inv : String) :
    addInv ((n, l) :: rest) n inv = (n, l ++ [inv]) :: rest := by
  simp [addInv]

theorem foldl_mainStep_single_key (records : List SyscallRecord) (n : String) :
    (∀ r ∈ records, r.fn = n) →
    ∀ l i t h, (records.foldl mainStep ⟨[(n, l)], i, t, h⟩).invocations =
      [(n, l ++ records.map (fun r => r.invocation))] := by
  induction records with
  | nil => intro _ l i t h; simp
  | cons r rs ih =>
    intro hall l i t h
    simp only [List.foldl_cons, mainStep]
    have hr : r.fn = n := hall r (List.mem_cons_self r rs)
    rw [hr, addInv_head_same]
    rw [ih (fun x hx => hall x (List.mem_cons_of_mem r hx))]
    simp

theorem mainFold_single_key {records : List SyscallRecord} {n : String}
    (hall : ∀ r ∈ records, r.fn = n) (hne : records ≠ []) :
    (mainFold records).invocations =
      [(n, records.map (fun r => r.invocation))] := by
  cases records with
  | nil => exact absurd rfl hne
  | cons r rs =>
    unfold mainFold
    simp only [List.foldl_cons, mainStep]
    have hr : r.fn = n := hall r (List.mem_cons_self r rs)
    rw [hr]
    have h0 : addInv [] n r.invocation = [(n, [r.invocation])] := rfl
    simp only [h0]
    rw [foldl_mainStep_single_key rs n (fun x hx => hall x (List.mem_cons_of_mem r hx))]
    simp

theorem addInv_keys (m : List (String × List String)) (fn inv : String) :
    (addInv m fn inv).map Prod.fst =
      if fn ∈ m.map Prod.fst then m.map Prod.fst else m.map Prod.fst ++ [fn] := by
  induction m with
  | nil => simp [addInv]
  | cons p rest ih =>
    obtain ⟨k, vs⟩ := p
    by_cases hk : k = fn
    · subst hk
      simp [addInv]
    · have hk2 : ¬fn = k := fun h => hk h.symm
      by_cases hmem : fn ∈ rest.map Prod.fst
      · simp [addInv, hk, hk2, hmem, ih]
      · simp [addInv, hk, hk2, hmem, ih]

theorem addInv_keys_nodup {m : List (String × List String)} {fn inv : String}
    (h : (m.map Prod.fst).Nodup) : ((addInv m fn inv).map Prod.fst).Nodup := by
  rw [addInv_keys]
  split
  · exact h
  · rename_i hmem
    refine List.Nodup.append h (List.nodup_singleton fn) ?_
    intro x hx hx2
    simp only [List.mem_singleton] at hx2
    subst hx2
    exact hmem hx

theorem foldl_mainStep_keys_nodup (records : List SyscallRecord) :
    ∀ acc : MainAcc, (acc.invocations.map Prod.fst).Nodup →
      (((records.foldl mainStep acc).invocations).map Prod.fst).Nodup := by
  induction records with
  | nil => intro acc h; simpa using h
  | cons r rs ih =>
    intro acc h
    simp only [List.foldl_cons]
    exact ih _ (addInv_keys_nodup h)

theorem mainFold_keys_nodup (records : List SyscallRecord) :
    (((mainFold records).invocations).map Prod.fst).Nodup :=
  foldl_mainStep_keys_nodup records _ (by simp)

theorem headersOut_keys (records : List SyscallRecord) :
    (headersOut records).map Prod.fst =
      ((mainFold records).invocations).map Prod.fst := by
  simp [headersOut, List.map_map]

theorem headersOut_keys_nodup (records : List SyscallRecord) :
    ((headersOut records).map Prod.fst).Nodup := by
  rw [headersOut_keys]
  exact mainFold_keys_nodup records

/-! ## The modelled file system -/

theorem lookupFs_setKey_self (fs : List (String × String)) (k v : String) :
    lookupFs (setKey fs k v) k = some v := by
  induction fs with
  | nil => simp [setKey, lookupFs]
  | cons p rest ih =>
    obtain ⟨a, b⟩ := p
    simp only [setKey]
    by_cases ha : a = k
    · subst ha
      simp [lookupFs]
    · rw [if_neg ha]
      simp only [lookupFs, if_neg ha]
      exact ih

theorem lookupFs_setKey_ne (fs : List (String × String)) {j k : String}
    (v : String) (h : j ≠ k) : lookupFs (setKey fs j v) k = lookupFs fs k := by
  induction fs with
  | nil =>
    simp only [setKey, lookupFs]
    rw [if_neg h]
  | cons p rest ih =>
    obtain ⟨a, b⟩ := p
    simp only [setKey]
    by_cases ha : a = j
    · subst ha
      rw [if_pos rfl]
      simp only [lookupFs]
      rw [if_neg h, if_neg h]
    · rw [if_neg ha]
      simp only [lookupFs]
      split
      · rfl
      · exact ih

theorem applyWrites_lookup_not_mem :
    ∀ (hs : List (String × String)) (fs : List (String × String)) (k : String),
      k ∉ hs.map Prod.fst → lookupFs (applyWrites fs hs) k = lookupFs fs k := by
  intro hs
  induction hs with
  | nil => intro fs k _; rfl
  | cons p rest ih =>
    intro fs k hk
    obtain ⟨a, b⟩ := p
    simp only [List.map_cons, List.mem_cons] at hk
    push_neg at hk
    simp only [applyWrites, List.foldl_cons]
    rw [show (List.foldl (fun m kv => setKey m kv.1 kv.2) (setKey fs a b) rest) =
      applyWrites (setKey fs a b) rest from rfl]
    rw [ih (setKey fs a b) k hk.2]
    exact lookupFs_setKey_ne fs b (fun h : a = k => hk.1 h.symm)

theorem applyWrites_lookup :
    ∀ (hs : List (String × String)) (fs : List (String × String)) (k v : String),
      (k, v) ∈ hs → (hs.map Prod.fst).Nodup →
      lookupFs (applyWrites fs hs) k = some v := by
  intro hs
  induction hs with
  | nil => intro fs k v hm _; simp at hm
  | cons p rest ih =>
    intro fs k v hm hnd
    obtain ⟨a, b⟩ := p
    rw [List.map_cons, List.nodup_cons] at hnd
    simp only [applyWrites, List.foldl_cons]
    rw [show (List.foldl (fun m kv => setKey m kv.1 kv.2) (setKey fs a b) rest) =
      applyWrites (setKey fs a b) rest from rfl]
    rcases List.mem_cons.mp hm with h | h
    · have h1 : k = a := congrArg Prod.fst h
      have h2 : v = b := congrArg Prod.snd h
      subst h1
      subst h2
      rw [applyWrites_lookup_not_mem rest (setKey fs k v) k (by simpa using hnd.1)]
      exact lookupFs_setKey_self fs k v
    · exact ih (setKey fs a b) k v h hnd.2

/-! ## Inversion lemmas for the analyzer and walker -/

theorem exceptMapM_ok_cons {α β : Type} {f : α → Except String β} {x : α}
    {xs : List α} {ys : List β} (h : (x :: xs).mapM f = .ok ys) :
    ∃ y ys', f x = .ok y ∧ xs.mapM f = .ok ys' ∧ ys = y :: ys' := by
  rw [List.mapM_cons] at h
  cases hfx : f x with
  | error e =>
    rw [hfx] at h
    simp [bind, Except.bind] at h
  | ok y =>
    rw [hfx] at h
    cases hxs : xs.mapM f with
    | error e =>
      rw [hxs] at h
      simp [bind, Except.bind] at h
    | ok ys' =>
      rw [hxs] at h
      simp only [bind, Except.bind, pure, Except.pure, Except.ok.injEq] at h
      exact ⟨y, ys', rfl, rfl, h.symm⟩

theorem exceptMapM_ok_length {α β : Type} {f : α → Except String β} :
    ∀ {xs : List α} {ys : List β}, xs.mapM f = .ok ys → ys.length = xs.length := by
  intro xs
  induction xs with
  | nil =>
    intro ys h
    simp only [List.mapM_nil, pure, Except.pure, Except.ok.injEq] at h
    simp [← h]
  | cons x xs ih =>
    intro ys h
    obtain ⟨y, ys', _, hxs, rfl⟩ := exceptMapM_ok_cons h
    simp [ih hxs]

theorem exceptMapM_ok_mem {α β : Type} {f : α → Except String β} :
    ∀ {xs : List α} {ys : List β}, xs.mapM f = .ok ys →
      ∀ y ∈ ys, ∃ x ∈ xs, f x = .ok y := by
  intro xs
  induction xs with
  | nil =>
    intro ys h y hy
    simp only [List.mapM_nil, pure, Except.pure, Except.ok.injEq] at h
    rw [← h] at hy
    simp at hy
  | cons x xs ih =>
    intro ys h y hy
    obtain ⟨y', ys', hfx, hxs, rfl⟩ := exceptMapM_ok_cons h
    rcases List.mem_cons.mp hy with h1 | h1
    · exact ⟨x, List.mem_cons_self x xs, h1 ▸ hfx⟩
    · obtain ⟨x', hx', hfx'⟩ := ih hxs y h1
      exact ⟨x', List.mem_cons_of_mem x hx', hfx'⟩

theorem splitComma_ne_nil (cs : List Char) : splitComma cs ≠ [] := by
  cases cs with
  | nil => simp [splitComma]
  | cons c cs' =>
    simp only [splitComma]
    split
    · simp
    · split <;> simp

/-- Full inversion of a successful `analyze_fn`: the parsed argument list
and the split of the return fragment determine every field of the
record. -/
theorem analyzeFn_ok_iff {variant func args fn : String} {r : SyscallRecord} :
    analyzeFn variant func args fn = .ok r ↔
      ∃ argl funcType funcName,
        parseArgs args = .ok argl ∧
        typename_split func = .ok (funcType, funcName) ∧
        r = ⟨fn,
          "_handler_" ++ funcName,
          macroName argl.length (funcType == "void") (variant == "syscall_inline") ++
            "(" ++
            joinSep ", "
              (("K_SYSCALL_" ++ pyUpper funcName) :: funcName ::
                (if funcType == "void" then argl.flatMap (fun p => [p.1, p.2])
                 else funcType :: argl.flatMap (fun p => [p.1, p.2]))) ++ ");",
          "K_SYSCALL_" ++ pyUpper funcName,
          "[" ++ ("K_SYSCALL_" ++ pyUpper funcName) ++ "] = " ++
            ("_handler_" ++ funcName)⟩ := by
  constructor
  · intro h
    simp only [analyzeFn, bind, Except.bind] at h
    cases hp : parseArgs args with
    | error e =>
      rw [hp] at h
      simp at h
    | ok argl =>
      rw [hp] at h
      cases ht : typename_split func with
      | error e =>
        rw [ht] at h
        simp at h
      | ok p =>
        rw [ht] at h
        obtain ⟨funcType, funcName⟩ := p
        simp only [pure, Except.pure, Except.ok.injEq] at h
        exact ⟨argl, funcType, funcName, rfl, rfl, h.symm⟩
  · rintro ⟨argl, funcType, funcName, hp, ht, rfl⟩
    simp only [analyzeFn, bind, Except.bind, hp, ht, pure, Except.pure]

theorem analyzeFn_fn {variant func args fn : String} {r : SyscallRecord}
    (h : analyzeFn variant func args fn = .ok r) : r.fn = fn := by
  obtain ⟨_, _, _, _, _, rfl⟩ := analyzeFn_ok_iff.mp h
  rfl

theorem analyzeFile_fn {content fn : String} {rs : List SyscallRecord}
    (h : analyzeFile content fn = .ok rs) : ∀ r ∈ rs, r.fn = fn := by
  intro r hr
  obtain ⟨t, _, hok⟩ := exceptMapM_ok_mem h r hr
  exact analyzeFn_fn hok

theorem writtenPaths_applyWrites_self {hs fs : List (String × String)}
    (hnd : (hs.map Prod.fst).Nodup) : writtenPaths (applyWrites fs hs) hs = [] := by
  have hfil : (hs.filter fun kv =>
      shouldWrite (lookupFs (applyWrites fs hs) kv.1) kv.2) = [] := by
    rw [List.filter_eq_nil_iff]
    intro kv hkv
    have hl := applyWrites_lookup hs fs kv.1 kv.2 (by simpa using hkv) hnd
    rw [hl]
    simp [shouldWrite]
  simp only [writtenPaths, hfil, List.map_nil]

theorem mainOutputs_ok_iff {files : List (String × String × String)}
    {d l : String} {hs : List (String × String)} :
    mainOutputs files = .ok (d, l, hs) ↔
      ∃ records, analyzeHeaders files = .ok records ∧
        d = dispatchText records ∧ l = listingText records ∧
        hs = headersOut records := by
  constructor
  · intro h
    simp only [mainOutputs, bind, Except.bind] at h
    cases ha : analyzeHeaders files with
    | error e =>
      rw [ha] at h
      simp at h
    | ok records =>
      rw [ha] at h
      simp only [pure, Except.pure, Except.ok.injEq, Prod.mk.injEq] at h
      exact ⟨records, rfl, h.1.symm, h.2.1.symm, h.2.2.symm⟩
  · rintro ⟨records, ha, rfl, rfl, rfl⟩
    simp only [mainOutputs, bind, Except.bind, ha, pure, Except.pure]

/-! ## The claims -/

/-- Claim C1: for every declaration the Analyzer accepts, the syscall
identifier is `K_SYSCALL_` followed by the uppercased function name, the
handler symbol is `_handler_` followed by the function name, and the
dispatch entry is the mapping-style initializer
`[identifier] = handler-symbol`. -/
theorem analyzeFn_identifier_handler_entry (variant func args fn : String)
    (r : SyscallRecord) (h : analyzeFn variant func args fn = .ok r) :
    ∃ funcType funcName,
      typename_split func = .ok (funcType, funcName) ∧
      r.sysId = "K_SYSCALL_" ++ pyUpper funcName ∧
      r.handler = "_handler_" ++ funcName ∧
      r.tableEntry = "[" ++ r.sysId ++ "] = " ++ r.handler := by
  obtain ⟨argl, funcType, funcName, _, ht, rfl⟩ := analyzeFn_ok_iff.mp h
  exact ⟨funcType, funcName, ht, rfl, rfl, rfl⟩

/-- Witness for C1 at the declaration `__syscall int bar(int a)` in
`foo.h`. -/
theorem analyzeFn_identifier_handler_entry_witness :
    ∃ funcType funcName,
      typename_split "int bar" = .ok (funcType, funcName) ∧
      (SyscallRecord.mk "foo.h" "_handler_bar"
        "K_SYSCALL_DECLARE1(K_SYSCALL_BAR, bar, int, int, a);"
        "K_SYSCALL_BAR" "[K_SYSCALL_BAR] = _handler_bar").sysId =
          "K_SYSCALL_" ++ pyUpper funcName ∧
      (SyscallRecord.mk "foo.h" "_handler_bar"
        "K_SYSCALL_DECLARE1(K_SYSCALL_BAR, bar, int, int, a);"
        "K_SYSCALL_BAR" "[K_SYSCALL_BAR] = _handler_bar").handler =
          "_handler_" ++ funcName ∧
      (SyscallRecord.mk "foo.h" "_handler_bar"
        "K_SYSCALL_DECLARE1(K_SYSCALL_BAR, bar, int, int, a);"
        "K_SYSCALL_BAR" "[K_SYSCALL_BAR] = _handler_bar").tableEntry =
        "[" ++ (SyscallRecord.mk "foo.h" "_handler_bar"
          "K_SYSCALL_DECLARE1(K_SYSCALL_BAR, bar, int, int, a);"
          "K_SYSCALL_BAR" "[K_SYSCALL_BAR] = _handler_bar").sysId ++ "] = " ++
        (SyscallRecord.mk "foo.h" "_handler_bar"
          "K_SYSCALL_DECLARE1(K_SYSCALL_BAR, bar, int, int, a);"
          "K_SYSCALL_BAR" "[K_SYSCALL_BAR] = _handler_bar").handler :=
  analyzeFn_identifier_handler_entry "syscall" "int bar" "int a" "foo.h" _ (by rfl)

theorem sfxData_inj : ∀ v1 i1 v2 i2 : Bool,
    sfxData v1 i1 = sfxData v2 i2 → v1 = v2 ∧ i1 = i2 := by
  intro v1 i1 v2 i2 h
  cases v1 <;> cases i1 <;> cases v2 <;> cases i2 <;>
    first
      | exact ⟨rfl, rfl⟩
      | exact absurd h (by decide)

/-- Claim C2: the macro name generated by the Analyzer is determined by
exactly the triple (argument count, void flag, inline flag), and distinct
triples yield distinct macro names. -/
theorem macroName_injective (n1 : Nat) (v1 i1 : Bool) (n2 : Nat) (v2 i2 : Bool)
    (h : macroName n1 v1 i1 = macroName n2 v2 i2) :
    n1 = n2 ∧ v1 = v2 ∧ i1 = i2 := by
  have hd := congrArg String.data h
  rw [macroName_data, macroName_data] at hd
  have hd2 := List.append_cancel_left hd
  obtain ⟨h1, h2⟩ := digit_run_append_inj (decChars_digits n1) (decChars_digits n2)
    (sfx_head v1 i1) (sfx_head v2 i2) hd2
  exact ⟨decChars_inj n1 n2 h1, sfxData_inj v1 i1 v2 i2 h2⟩

/-- Witness for C2 at the triple (2, non-void, inline). -/
theorem macroName_injective_witness :
    macroName 2 false true = macroName 2 false true ∧
      (2 = 2 ∧ false = false ∧ true = true) :=
  ⟨rfl, macroName_injective 2 false true 2 false true rfl⟩

/-- Claim C3 counterexample: the argument-list text `" void "` trims to
`void`, but the analyzer does not treat it as zero arguments — the
comparison in the script is against the untrimmed text, so `" void "` is
parsed as one argument (with empty type text and name `void`). -/
theorem parseArgs_trimmed_void_not_zero :
    pyStrip " void " = "void" ∧
    parseArgs " void " = .ok [("", "void")] ∧
    parseArgs " void " ≠ .ok [] := by
  refine ⟨by rfl, by rfl, ?_⟩
  intro h
  rw [show parseArgs " void " = .ok [("", "void")] from by rfl] at h
  simp at h

/-- Claim C3 (amended): a raw match has zero arguments exactly when the
argument-list text equals `void` without any trimming; every other
argument-list text is split on commas and each piece trimmed before the
Type/Name Splitter runs on it. -/
theorem parseArgs_characterisation (args : String) :
    (args = "void" → parseArgs args = .ok []) ∧
    (parseArgs args = .ok [] → args = "void") ∧
    (args ≠ "void" →
      parseArgs args =
        (splitComma args.data).mapM (fun a => typename_split (pyStrip ⟨a⟩))) := by
  refine ⟨?_, ?_, ?_⟩
  · intro h
    subst h
    rfl
  · intro h
    by_contra hne
    rw [show parseArgs args =
      (splitComma args.data).mapM (fun a => typename_split (pyStrip ⟨a⟩)) from by
        simp [parseArgs, hne]] at h
    have hlen := exceptMapM_ok_length h
    simp only [List.length_nil] at hlen
    exact splitComma_ne_nil args.data (List.length_eq_zero.mp hlen.symm)
  · intro hne
    simp [parseArgs, hne]

/-- Witness for C3 (amended) at the argument-list texts `void` and
`int a`. -/
theorem parseArgs_characterisation_witness :
    parseArgs "void" = .ok [] ∧
    parseArgs "int a" =
      (splitComma "int a".data).mapM (fun a => typename_split (pyStrip ⟨a⟩)) :=
  ⟨(parseArgs_characterisation "void").1 rfl,
    (parseArgs_characterisation "int a").2.2 (by decide)⟩

/-- Claim C4 counterexample: the fragment made of `a`, a newline and `b`
ends in the identifier character `b` and contains neither `[` nor `(`, yet
`typename_split` raises instead of returning — the regex' `.*?` cannot
cross the newline. -/
theorem typename_split_newline_counterexample :
    ('[' ∉ "a\nb".data) ∧ ('(' ∉ "a\nb".data) ∧
    "a\nb".data.getLast? = some 'b' ∧ isIdChar 'b' = true ∧
    typename_split "a\nb" = .error "Malformed system call invocation" := by
  refine ⟨by decide, by decide, by rfl, by rfl, by rfl⟩

/-- Claim C4 (amended): `typename_split` fails with the array diagnostic
on every fragment containing `[`, with the function-pointer diagnostic on
every remaining fragment containing `(`, and otherwise — writing the
fragment minus one optional final newline as `before ++ run` with `run`
its maximal trailing run of identifier characters — returns
`(strip(before), run)` when `run` is non-empty and `before` has no
newline, and fails with the malformed-invocation diagnostic in every
other case. -/
theorem typename_split_characterisation (item : String) :
    typename_split item =
      if '[' ∈ item.data then
        .error ("Please pass arrays to syscalls as pointers, unable to process \x27"
          ++ item ++ "\x27")
      else if '(' ∈ item.data then
        .error "Please use typedefs for function pointers"
      else if trailRun (coreNl item.data) ≠ [] ∧ '\n' ∉ beforeRun (coreNl item.data)
      then .ok (pyStrip ⟨beforeRun (coreNl item.data)⟩, ⟨trailRun (coreNl item.data)⟩)
      else .error "Malformed system call invocation" := by
  unfold typename_split
  by_cases h1 : '[' ∈ item.data
  · rw [if_pos (by simpa using h1), if_pos h1]
  · rw [if_neg (by simpa using h1), if_neg h1]
    by_cases h2 : '(' ∈ item.data
    · rw [if_pos (by simpa using h2), if_pos h2]
    · rw [if_neg (by simpa using h2), if_neg h2]
      rw [findMatch_eq]
      by_cases h3 : trailRun (coreNl item.data) ≠ [] ∧
          '\n' ∉ beforeRun (coreNl item.data)
      · rw [if_pos h3, if_pos h3]
      · rw [if_neg h3, if_neg h3]

/-- Claim C5: the scenario `__syscall int bar(int a, void *b);` in
`foo.h`: identifier `K_SYSCALL_BAR`, handler `_handler_bar`, dispatch
entry `[K_SYSCALL_BAR] = _handler_bar`, and an invocation header for
`foo.h` whose macro call is the 2-argument non-void non-inline variant
applied to `K_SYSCALL_BAR, bar, int, int, a, void *, b`. -/
theorem scenario_foo_bar :
    analyzeHeaders [("include", "foo.h", "__syscall int bar(int a, void *b);\n")] =
      .ok [SyscallRecord.mk "foo.h" "_handler_bar"
        "K_SYSCALL_DECLARE2(K_SYSCALL_BAR, bar, int, int, a, void *, b);"
        "K_SYSCALL_BAR" "[K_SYSCALL_BAR] = _handler_bar"] ∧
    macroName 2 false false = "K_SYSCALL_DECLARE2" ∧
    headersOut [SyscallRecord.mk "foo.h" "_handler_bar"
        "K_SYSCALL_DECLARE2(K_SYSCALL_BAR, bar, int, int, a, void *, b);"
        "K_SYSCALL_BAR" "[K_SYSCALL_BAR] = _handler_bar"] =
      [("foo.h", syscallTemplate
        "K_SYSCALL_DECLARE2(K_SYSCALL_BAR, bar, int, int, a, void *, b);")] :=
  ⟨by rfl, by rfl, by rfl⟩

/-- Claim C6: the listing enumeration is the record identifiers sorted
lexicographically (by code point), followed by exactly the two sentinels,
which stand last whatever the sort produced; as sets, the listing equals
the derived identifiers together with the two sentinels. -/
theorem listingIds_sorted_sentinels (records : List SyscallRecord) :
    ∃ sorted : List String,
      listingIds records = sorted ++ ["K_SYSCALL_BAD", "K_SYSCALL_LIMIT"] ∧
      sorted.Perm (records.map (fun r => r.sysId)) ∧
      List.Pairwise (fun a b => strLe a b = true) sorted ∧
      (listingIds records).toFinset =
        (records.map (fun r => r.sysId)).toFinset ∪
          {"K_SYSCALL_BAD", "K_SYSCALL_LIMIT"} := by
  refine ⟨(mainFold records).ids.mergeSort strLe, rfl, ?_, ?_, ?_⟩
  · rw [mainFold_ids]
    exact List.mergeSort_perm (records.map (fun r => r.sysId)) strLe
  · exact List.sorted_mergeSort strLe_trans strLe_total _
  · rw [listingIds, List.toFinset_append, mainFold_ids]
    rw [List.toFinset_eq_of_perm _ _
      (List.mergeSort_perm (records.map (fun r => r.sysId)) strLe)]
    congr 1

set_option maxRecDepth 8192 in
/-- Claim C7 counterexample: two identical declarations of `f` are both
kept (the aggregation does not deduplicate), so the dispatch unit holds
one weak declaration per record — two for the single distinct handler
symbol `_handler_f` — and differs from a unit with one weak declaration
per distinct symbol. -/
theorem dispatch_weak_not_deduplicated :
    analyzeHeaders [("", "a.h", "__syscall void f(void); __syscall void f(void);")] =
      .ok [SyscallRecord.mk "a.h" "_handler_f"
          "K_SYSCALL_DECLARE0_VOID(K_SYSCALL_F, f);" "K_SYSCALL_F"
          "[K_SYSCALL_F] = _handler_f",
        SyscallRecord.mk "a.h" "_handler_f"
          "K_SYSCALL_DECLARE0_VOID(K_SYSCALL_F, f);" "K_SYSCALL_F"
          "[K_SYSCALL_F] = _handler_f"] ∧
    dispatchText [SyscallRecord.mk "a.h" "_handler_f"
        "K_SYSCALL_DECLARE0_VOID(K_SYSCALL_F, f);" "K_SYSCALL_F"
        "[K_SYSCALL_F] = _handler_f",
      SyscallRecord.mk "a.h" "_handler_f"
        "K_SYSCALL_DECLARE0_VOID(K_SYSCALL_F, f);" "K_SYSCALL_F"
        "[K_SYSCALL_F] = _handler_f"] ≠
    tableTemplate
      (String.join ((([SyscallRecord.mk "a.h" "_handler_f"
          "K_SYSCALL_DECLARE0_VOID(K_SYSCALL_F, f);" "K_SYSCALL_F"
          "[K_SYSCALL_F] = _handler_f",
        SyscallRecord.mk "a.h" "_handler_f"
          "K_SYSCALL_DECLARE0_VOID(K_SYSCALL_F, f);" "K_SYSCALL_F"
          "[K_SYSCALL_F] = _handler_f"].map (fun r => r.handler)).dedup).map
            weakTemplate))
      (joinSep ",\n\t" ([SyscallRecord.mk "a.h" "_handler_f"
          "K_SYSCALL_DECLARE0_VOID(K_SYSCALL_F, f);" "K_SYSCALL_F"
          "[K_SYSCALL_F] = _handler_f",
        SyscallRecord.mk "a.h" "_handler_f"
          "K_SYSCALL_DECLARE0_VOID(K_SYSCALL_F, f);" "K_SYSCALL_F"
          "[K_SYSCALL_F] = _handler_f"].map (fun r => r.tableEntry) ++
          [badTableEntry])) := by
  refine ⟨by rfl, ?_⟩
  intro h
  have hlen := congrArg String.length h
  rw [show String.length (dispatchText [SyscallRecord.mk "a.h" "_handler_f"
      "K_SYSCALL_DECLARE0_VOID(K_SYSCALL_F, f);" "K_SYSCALL_F"
      "[K_SYSCALL_F] = _handler_f",
    SyscallRecord.mk "a.h" "_handler_f"
      "K_SYSCALL_DECLARE0_VOID(K_SYSCALL_F, f);" "K_SYSCALL_F"
      "[K_SYSCALL_F] = _handler_f"]) = 652 from by rfl] at hlen
  rw [show String.length (tableTemplate
      (String.join ((([SyscallRecord.mk "a.h" "_handler_f"
          "K_SYSCALL_DECLARE0_VOID(K_SYSCALL_F, f);" "K_SYSCALL_F"
          "[K_SYSCALL_F] = _handler_f",
        SyscallRecord.mk "a.h" "_handler_f"
          "K_SYSCALL_DECLARE0_VOID(K_SYSCALL_F, f);" "K_SYSCALL_F"
          "[K_SYSCALL_F] = _handler_f"].map (fun r => r.handler)).dedup).map
            weakTemplate))
      (joinSep ",\n\t" ([SyscallRecord.mk "a.h" "_handler_f"
          "K_SYSCALL_DECLARE0_VOID(K_SYSCALL_F, f);" "K_SYSCALL_F"
          "[K_SYSCALL_F] = _handler_f",
        SyscallRecord.mk "a.h" "_handler_f"
          "K_SYSCALL_DECLARE0_VOID(K_SYSCALL_F, f);" "K_SYSCALL_F"
          "[K_SYSCALL_F] = _handler_f"].map (fun r => r.tableEntry) ++
          [badTableEntry]))) = 504 from by rfl] at hlen
  exact absurd hlen (by decide)

/-- Claim C7 (amended): the dispatch unit holds one weak forward
declaration per record's handler-symbol occurrence, in record order (a
handler symbol shared by several records is repeated, not deduplicated),
followed by the table literal with one entry per record in record order
and the bad-syscall sentinel entry last. -/
theorem dispatchText_per_record (records : List SyscallRecord) :
    dispatchText records =
      tableTemplate
        (String.join ((records.map (fun r => r.handler)).map weakTemplate))
        (joinSep ",\n\t" (records.map (fun r => r.tableEntry) ++ [badTableEntry])) := by
  unfold dispatchText
  rw [mainFold_handlers, mainFold_entries]

/-- Claim C8: a `GrammarError` anywhere during record collection aborts
the run before any artifact is computed: `main` produces none of the three
outputs, because they are all rendered only after `analyze_headers`
returned. -/
theorem mainOutputs_failfast (files : List (String × String × String))
    (e : String) (h : analyzeHeaders files = .error e) :
    mainOutputs files = .error e := by
  simp [mainOutputs, bind, Except.bind, h]

/-- Witness for C8 at a tree with one malformed declaration
(`__syscall int f[2](void);` uses array syntax). -/
theorem mainOutputs_failfast_witness :
    mainOutputs [("", "a.h", "__syscall int f[2](void);")] =
      .error "Please pass arrays to syscalls as pointers, unable to process \x27int f[2]\x27" :=
  mainOutputs_failfast [("", "a.h", "__syscall int f[2](void);")]
    "Please pass arrays to syscalls as pointers, unable to process \x27int f[2]\x27"
    (by rfl)

/-- Claim C9: an invocation header whose target file already holds
byte-identical content is not written, a missing or differing target is
written; the outputs are a function of the input files alone, so a second
run computes byte-identical dispatch and listing text and, against the
file system the first run left behind, writes no invocation header at
all. -/
theorem headers_conditional_write_idempotent
    (files : List (String × String × String)) (d l : String)
    (hs fs : List (String × String))
    (h : mainOutputs files = .ok (d, l, hs)) :
    (∀ c n : String, shouldWrite (some c) n = false ↔ c = n) ∧
    (∀ n : String, shouldWrite none n = true) ∧
    (∀ d2 l2 hs2, mainOutputs files = .ok (d2, l2, hs2) →
      d2 = d ∧ l2 = l ∧ hs2 = hs) ∧
    writtenPaths (applyWrites fs hs) hs = [] := by
  obtain ⟨records, ha, rfl, rfl, rfl⟩ := mainOutputs_ok_iff.mp h
  refine ⟨?_, fun n => rfl, ?_, ?_⟩
  · intro c n
    simp [shouldWrite]
  · intro d2 l2 hs2 h2
    obtain ⟨records2, ha2, rfl, rfl, rfl⟩ := mainOutputs_ok_iff.mp h2
    rw [ha] at ha2
    cases Except.ok.inj ha2
    exact ⟨rfl, rfl, rfl⟩
  · exact writtenPaths_applyWrites_self (headersOut_keys_nodup records)

/-- Witness for C9: after the first run on a tree declaring `f` wrote its
single invocation header into an empty file system, the second run writes
nothing. -/
theorem headers_conditional_write_idempotent_witness :
    writtenPaths
      (applyWrites []
        (headersOut [SyscallRecord.mk "a.h" "_handler_f"
          "K_SYSCALL_DECLARE0_VOID(K_SYSCALL_F, f);" "K_SYSCALL_F"
          "[K_SYSCALL_F] = _handler_f"]))
      (headersOut [SyscallRecord.mk "a.h" "_handler_f"
        "K_SYSCALL_DECLARE0_VOID(K_SYSCALL_F, f);" "K_SYSCALL_F"
        "[K_SYSCALL_F] = _handler_f"]) = [] :=
  (headers_conditional_write_idempotent [("", "a.h", "__syscall void f(void);")]
    (dispatchText [SyscallRecord.mk "a.h" "_handler_f"
      "K_SYSCALL_DECLARE0_VOID(K_SYSCALL_F, f);" "K_SYSCALL_F"
      "[K_SYSCALL_F] = _handler_f"])
    (listingText [SyscallRecord.mk "a.h" "_handler_f"
      "K_SYSCALL_DECLARE0_VOID(K_SYSCALL_F, f);" "K_SYSCALL_F"
      "[K_SYSCALL_F] = _handler_f"])
    (headersOut [SyscallRecord.mk "a.h" "_handler_f"
      "K_SYSCALL_DECLARE0_VOID(K_SYSCALL_F, f);" "K_SYSCALL_F"
      "[K_SYSCALL_F] = _handler_f"])
    [] (by rfl)).2.2.2

/-- Claim C10: the walker records the base file name, not the path, as a
record's origin, so two header files with the same base name in different
subdirectories contribute to one shared group: their records interleave in
traversal order and a single invocation header keyed (and written) under
the shared base name holds all their invocations. -/
theorem same_basename_single_header (root1 root2 n c1 c2 : String)
    (rs1 rs2 : List SyscallRecord)
    (hk1 : keepFile root1 n = true) (hk2 : keepFile root2 n = true)
    (h1 : analyzeFile c1 n = .ok rs1) (h2 : analyzeFile c2 n = .ok rs2)
    (hne : rs1 ++ rs2 ≠ []) :
    analyzeHeaders [(root1, n, c1), (root2, n, c2)] = .ok (rs1 ++ rs2) ∧
    (∀ r ∈ rs1 ++ rs2, r.fn = n) ∧
    headersOut (rs1 ++ rs2) =
      [(n, syscallTemplate
        (joinSep "\n\n" ((rs1 ++ rs2).map (fun r => r.invocation))))] ∧
    (∀ base : String,
      (headersOut (rs1 ++ rs2)).map (fun kv => pathJoin base kv.1) =
        [pathJoin base n]) := by
  have hfn : ∀ r ∈ rs1 ++ rs2, r.fn = n := by
    intro r hr
    rcases List.mem_append.mp hr with hm | hm
    · exact analyzeFile_fn h1 r hm
    · exact analyzeFile_fn h2 r hm
  have hAH : analyzeHeaders [(root1, n, c1), (root2, n, c2)] = .ok (rs1 ++ rs2) := by
    simp [analyzeHeaders, hk1, hk2, h1, h2, bind, Except.bind, pure, Except.pure]
  have hHdr : headersOut (rs1 ++ rs2) =
      [(n, syscallTemplate
        (joinSep "\n\n" ((rs1 ++ rs2).map (fun r => r.invocation))))] := by
    unfold headersOut
    rw [mainFold_single_key hfn hne]
    rfl
  exact ⟨hAH, hfn, hHdr, fun base => by rw [hHdr]; rfl⟩

/-- Witness for C10: `inc/a/foo.h` declares `f` and `inc/b/foo.h`
declares `g`; both land in the one header group keyed `foo.h`. -/
theorem same_basename_single_header_witness :
    analyzeHeaders
      [("inc/a", "foo.h", "__syscall void f(void);"),
        ("inc/b", "foo.h", "__syscall int g(int x);")] =
      .ok ([SyscallRecord.mk "foo.h" "_handler_f"
          "K_SYSCALL_DECLARE0_VOID(K_SYSCALL_F, f);" "K_SYSCALL_F"
          "[K_SYSCALL_F] = _handler_f"] ++
        [SyscallRecord.mk "foo.h" "_handler_g"
          "K_SYSCALL_DECLARE1(K_SYSCALL_G, g, int, int, x);" "K_SYSCALL_G"
          "[K_SYSCALL_G] = _handler_g"]) ∧
    headersOut ([SyscallRecord.mk "foo.h" "_handler_f"
        "K_SYSCALL_DECLARE0_VOID(K_SYSCALL_F, f);" "K_SYSCALL_F"
        "[K_SYSCALL_F] = _handler_f"] ++
      [SyscallRecord.mk "foo.h" "_handler_g"
        "K_SYSCALL_DECLARE1(K_SYSCALL_G, g, int, int, x);" "K_SYSCALL_G"
        "[K_SYSCALL_G] = _handler_g"]) =
      [("foo.h", syscallTemplate
        (joinSep "\n\n" (([SyscallRecord.mk "foo.h" "_handler_f"
            "K_SYSCALL_DECLARE0_VOID(K_SYSCALL_F, f);" "K_SYSCALL_F"
            "[K_SYSCALL_F] = _handler_f"] ++
          [SyscallRecord.mk "foo.h" "_handler_g"
            "K_SYSCALL_DECLARE1(K_SYSCALL_G, g, int, int, x);" "K_SYSCALL_G"
            "[K_SYSCALL_G] = _handler_g"]).map (fun r => r.invocation))))] :=
  ⟨(same_basename_single_header "inc/a" "inc/b" "foo.h"
      "__syscall void f(void);" "__syscall int g(int x);"
      [SyscallRecord.mk "foo.h" "_handler_f"
        "K_SYSCALL_DECLARE0_VOID(K_SYSCALL_F, f);" "K_SYSCALL_F"
        "[K_SYSCALL_F] = _handler_f"]
      [SyscallRecord.mk "foo.h" "_handler_g"
        "K_SYSCALL_DECLARE1(K_SYSCALL_G, g, int, int, x);" "K_SYSCALL_G"
        "[K_SYSCALL_G] = _handler_g"]
      (by rfl) (by rfl) (by rfl) (by rfl) (by simp)).1,
    (same_basename_single_header "inc/a" "inc/b" "foo.h"
      "__syscall void f(void);" "__syscall int g(int x);"
      [SyscallRecord.mk "foo.h" "_handler_f"
        "K_SYSCALL_DECLARE0_VOID(K_SYSCALL_F, f);" "K_SYSCALL_F"
        "[K_SYSCALL_F] = _handler_f"]
      [SyscallRecord.mk "foo.h" "_handler_g"
        "K_SYSCALL_DECLARE1(K_SYSCALL_G, g, int, int, x);" "K_SYSCALL_G"
        "[K_SYSCALL_G] = _handler_g"]
      (by rfl) (by rfl) (by rfl) (by rfl) (by simp)).2.2.1⟩
